import Mathlib

/-
Verification of the `ph-map` crate: a static, rebuildable key-value map
backed by a perfect-hash index (`PhMap`), its string specialization
(`PhStrMap`), and the distinguishing-range algorithm
(`smallest_uncommon_range`), all from `src/lib.rs`.

The external perfect-index function (`ph::phast::Perfect`) is out of scope
per the spec; it is modelled as an abstract parameter `build` producing a
slot-assignment function, together with a fixed hash function `hash`
(`BuildDefaultSeededHasher` is deterministic and identical across rebuilds).
Loops whose termination is not structurally evident in the source
(`smallest_uncommon_range`) are modelled with explicit fuel; a Rust panic
(failed assertion, out-of-bounds index, `unwrap` of `None`) is a distinct
outcome of the model.
-/

namespace PhMapModel

/-- Outcome of running a fuelled loop extracted from the Rust source: a
normal value, a Rust panic (failed assertion, out-of-bounds index, or
`unwrap` of `None`), or fuel exhaustion (the model's stand-in for a loop
that has not yet terminated). -/
inductive EvalRes (α : Type) where
  | ok (a : α)
  | panic
  | fuelOut
deriving DecidableEq

/-- Rust slice expression `s[a..b]` for `s : &[u8]` in the in-bounds case:
the elements at positions `a, ..., b-1`. Bytes are modelled as `Nat`. -/
def sliceOf (s : List Nat) (a b : Nat) : List Nat :=
  (s.take b).drop a

/-- Tail of itertools `all_equal` over `strs.map (fun i => i[start])`: `v` is
the value of the first element; each later element is indexed (panicking when
`start` is out of bounds) and compared, short-circuiting on a mismatch. -/
def allEqualFrom (v : Nat) (start : Nat) : List (List Nat) → EvalRes Bool
  | [] => .ok true
  | s :: rest =>
    if h : start < s.length then
      if s[start] = v then allEqualFrom v start rest else .ok false
    else .panic

/-- Evaluation of `strs.clone().map(|i| i[start]).all_equal()` in
`smallest_uncommon_range`, including the panic on out-of-bounds indexing. -/
def allEqualAt (start : Nat) : List (List Nat) → EvalRes Bool
  | [] => .ok true
  | s :: rest =>
    if h : start < s.length then allEqualFrom s[start] start rest else .panic

/-- Evaluation of `strs.clone().map(|s| &s[out.clone()]).all_unique()`:
elements are sliced one by one (a slice `s[a..b]` panics unless
`a ≤ b ∧ b ≤ s.length`) and checked against the set of slices seen so far,
short-circuiting on the first repeat. -/
def allUniqueFrom (a b : Nat) : List (List Nat) → List (List Nat) → EvalRes Bool
  | [], _ => .ok true
  | s :: rest, seen =>
    if a ≤ b ∧ b ≤ s.length then
      if sliceOf s a b ∈ seen then .ok false
      else allUniqueFrom a b rest (sliceOf s a b :: seen)
    else .panic

/-- First loop of `smallest_uncommon_range`: advance `start` while all
sequences agree on byte `start`. -/
def findStart (strs : List (List Nat)) : Nat → Nat → EvalRes Nat
  | 0, _ => .fuelOut
  | fuel + 1, start =>
    match allEqualAt start strs with
    | .panic => .panic
    | .fuelOut => .fuelOut
    | .ok true => findStart strs fuel (start + 1)
    | .ok false => .ok start

/-- Second loop of `smallest_uncommon_range`: starting from
`out = start..start+1`, grow `out.end` until slicing every sequence to `out`
yields pairwise-unique results. -/
def findEnd (strs : List (List Nat)) (a : Nat) : Nat → Nat → EvalRes Nat
  | 0, _ => .fuelOut
  | fuel + 1, e =>
    match allUniqueFrom a e strs [] with
    | .panic => .panic
    | .fuelOut => .fuelOut
    | .ok true => .ok e
    | .ok false => findEnd strs a fuel (e + 1)

/-- `smallest_uncommon_range` from `src/lib.rs`: skip the common prefix,
then find the smallest `end` making all slices `s[start..end]` unique.
Returns the range as a `(start, end)` pair. -/
def smallestUncommonRange (strs : List (List Nat)) (fuel : Nat) : EvalRes (Nat × Nat) :=
  match findStart strs fuel 0 with
  | .panic => .panic
  | .fuelOut => .fuelOut
  | .ok s =>
    match findEnd strs s fuel (s + 1) with
    | .panic => .panic
    | .fuelOut => .fuelOut
    | .ok e => .ok (s, e)

/-- The external perfect-index function (`ph::phast::Perfect`), abstracted to
its query interface: `slot k h` models `get_with_top_level_hash(k, h)`. -/
structure Pif (K : Type) where
  slot : K → Nat → Option Nat

/-- The `PhMap` struct: the owned key list, the verification-hash array
`top_level_hashes`, the value slots (`Vec<MaybeUninit<V>>`, with `none`
standing for an uninitialized cell), and the current index function. -/
structure PhMap (K V : Type) where
  keys : List K
  top_level_hashes : List Nat
  values : List (Option V)
  to_index : Pif K

/-- The `Default` impl for `PhMap`: empty keys, hashes and values, and an
index function built over the empty key list. -/
def defaultMap {K V : Type} (build : List K → Pif K) : PhMap K V :=
  ⟨[], [], [], build []⟩

/-- phast's `get(key)`: query the index function with the key's own hash,
as `to_index.get(&key)` does inside `take_unchecked`, `Drop` and `get`. -/
def pifGet {K : Type} (hash : K → Nat) (p : Pif K) (k : K) : Option Nat :=
  p.slot k (hash k)

/-- `take_unchecked(&self.values, &self.to_index, key)`: read the value out
of the slot the current index function assigns to `key`. A missing index or
an uninitialized cell (both undefined behaviour in the source) yield `none`. -/
def takeValue {K V : Type} (hash : K → Nat) (m : PhMap K V) (k : K) : Option V :=
  match pifGet hash m.to_index k with
  | none => none
  | some idx =>
    match m.values[idx]? with
    | none => none
    | some cell => cell

/-- `self.values.set_len(max_idx + 1)` after a reservation: the value array
grown to length `max n xs.length` with uninitialized (`none`) cells. -/
def growTo {V : Type} (xs : List (Option V)) (n : Nat) : List (Option V) :=
  xs ++ List.replicate (n - xs.length) none

/-- `self.top_level_hashes.resize(max(len, max_idx + 1), 0)`: grow the hash
array, filling new cells with `0`. -/
def growHashes (hs : List Nat) (n : Nat) : List Nat :=
  hs ++ List.replicate (n - hs.length) 0

/-- The per-pair body of the `extend` rebuild pass: for each
`(key, value, hash)` triple, query the new index function (`unwrap` of
`None` is a panic, modelled as `none`), update `max_idx`, grow both arrays,
and write the value and hash into slot `idx`. The list of produced indices
is accumulated for the `all_unique` assertion. -/
def insertLoop {K V : Type} (p : Pif K) :
    List (K × V × Nat) → List (Option V) → List Nat → Nat → List Nat →
      Option (List (Option V) × List Nat × Nat × List Nat)
  | [], vals, hs, maxIdx, idxs => some (vals, hs, maxIdx, idxs)
  | (k, v, h) :: rest, vals, hs, maxIdx, idxs =>
    match p.slot k h with
    | none => none
    | some idx =>
      insertLoop p rest ((growTo vals (max maxIdx idx + 1)).set idx (some v))
        ((growHashes hs (max maxIdx idx + 1)).set idx h)
        (max maxIdx idx) (idxs ++ [idx])

/-- `List.mapM` specialised to `Option`, evaluating the effect of an
iterator chain element by element (failure anywhere fails the whole run). -/
def optMapList {α β : Type} (f : α → Option β) : List α → Option (List β)
  | [] => some []
  | a :: as2 =>
    match f a with
    | none => none
    | some b =>
      match optMapList f as2 with
      | none => none
      | some bs => some (b :: bs)

/-- The tail of `PhMap::extend` after the old pairs have been drained and
concatenated with the new ones: hash every key, rebuild the index function
over the full key list, run the rebuild pass, and assert that the produced
indices are all unique (`assert!(all_indices_unique)`; a failed assertion
or a failed `unwrap` is `none`). -/
def extendCore {K V : Type} (hash : K → Nat) (build : List K → Pif K)
    (combined : List (K × V)) : Option (PhMap K V) :=
  let keys := combined.map Prod.fst
  let p := build keys
  let triples := combined.map (fun kv => (kv.1, kv.2, hash kv.1))
  match insertLoop p triples [] (List.replicate keys.length 0) keys.length [] with
  | none => none
  | some (vals, hs, _, idxs) =>
    if idxs.Nodup then some ⟨keys, hs, vals, p⟩ else none

/-- `PhMap::extend`: drain the current keys, take each one's value from its
slot under the current index function, chain the new pairs, and rebuild. -/
def extend {K V : Type} (hash : K → Nat) (build : List K → Pif K)
    (m : PhMap K V) (kvs : List (K × V)) : Option (PhMap K V) :=
  match optMapList (fun k => (takeValue hash m k).map (fun v => (k, v))) m.keys with
  | none => none
  | some oldPairs => extendCore hash build (oldPairs ++ kvs)

/-- `PhMap::get`: hash the key, ask the index function for a slot (no slot
means absent), compare the stored verification hash (`get(idx)?` returns
`none` out of bounds), and return the slot's value on a match. -/
def get {K V : Type} (hash : K → Nat) (m : PhMap K V) (k : K) : Option V :=
  match pifGet hash m.to_index k with
  | none => none
  | some idx =>
    match m.top_level_hashes[idx]? with
    | none => none
    | some h2 => if h2 = hash k then (m.values[idx]?).bind (fun c => c) else none

/-- The `PhStrMap` struct: the stored trim range (`Range<usize>` as a
start/end pair, initially `0..0`) and the inner byte-keyed `PhMap`. -/
structure PhStrMap (V : Type) where
  rangeStart : Nat
  rangeEnd : Nat
  inner : PhMap (List Nat) V

/-- The `Default` impl for `PhStrMap`: range `0..0` and a default inner map. -/
def defaultStrMap {V : Type} (build : List (List Nat) → Pif (List Nat)) : PhStrMap V :=
  ⟨0, 0, defaultMap build⟩

/-- Outcome of `PhStrMap::extend`, separating the distinct panic sites of
the source: a panic inside `smallest_uncommon_range`, the
`assert!(range == self.range || self.range.is_empty())` failure, the
`assert!(... all_unique())` failure on the trimmed keys, and a panic inside
the inner `PhMap::extend`. -/
inductive StrRes (V : Type) where
  | ok (m : PhStrMap V)
  | rangePanic
  | rangeFuelOut
  | assertRangeFail
  | assertUniqueFail
  | innerFail

/-- `PhStrMap::extend`: compute the trim range over the raw key bytes, trim
every key to it, assert the range matches the stored one (or that the stored
range is empty), assert the trimmed keys are all unique, and delegate to the
inner map's `extend`. -/
def strExtend {V : Type} (hash : List Nat → Nat) (build : List (List Nat) → Pif (List Nat))
    (m : PhStrMap V) (kvs : List (List Nat × V)) (fuel : Nat) : StrRes V :=
  match smallestUncommonRange (kvs.map Prod.fst) fuel with
  | .panic => .rangePanic
  | .fuelOut => .rangeFuelOut
  | .ok (a, b) =>
    let kvs2 := kvs.map (fun kv => (sliceOf kv.1 a b, kv.2))
    if (a, b) = (m.rangeStart, m.rangeEnd) ∨ m.rangeEnd ≤ m.rangeStart then
      if (kvs2.map Prod.fst).Nodup then
        match extend hash build m.inner kvs2 with
        | some inner2 => .ok ⟨a, b, inner2⟩
        | none => .innerFail
      else .assertUniqueFail
    else .assertRangeFail

/-- `PhStrMap::insert(key, value)`: `extend(once((key, value)))`. -/
def strInsert {V : Type} (hash : List Nat → Nat) (build : List (List Nat) → Pif (List Nat))
    (m : PhStrMap V) (k : List Nat) (v : V) (fuel : Nat) : StrRes V :=
  strExtend hash build m [(k, v)] fuel

/-- The loop body of `Drop for PhMap`: walk the keys; for each, recompute the
slot under the supplied drop-time slot assignment (`dropSlot` composes the
drop-time `Hash` evaluation with `get_with_top_level_hash`, so an ill-behaved
`Hash` impl is an arbitrary `dropSlot`); keys with no slot are skipped; a slot
whose `dropped` bit is still clear has its value dropped (recorded in order)
and the bit set. -/
def dropLoop {K : Type} (dropSlot : K → Option Nat) :
    List K → List Bool → List Nat → List Bool × List Nat
  | [], dropped, order => (dropped, order)
  | k :: rest, dropped, order =>
    match dropSlot k with
    | none => dropLoop dropSlot rest dropped order
    | some idx =>
      if dropped[idx]? = some false then
        dropLoop dropSlot rest (dropped.set idx true) (order ++ [idx])
      else dropLoop dropSlot rest dropped order

/-- `Drop for PhMap`: the teardown scan starting from an all-clear `dropped`
bitvec of length `values.len()`. Returns the final bitvec and the list of
slot indices whose values were dropped, in drop order. -/
def dropMap {K V : Type} (dropSlot : K → Option Nat) (m : PhMap K V) :
    List Bool × List Nat :=
  dropLoop dropSlot m.keys (List.replicate m.values.length false) []

/-- Index of the first occurrence of `k` in `keys`, used by the reference
index function below. -/
def keyIndex {K : Type} [DecidableEq K] (k : K) : List K → Option Nat
  | [] => none
  | k0 :: rest => if k = k0 then some 0 else (keyIndex k rest).map (fun i => i + 1)

/-- A reference index function satisfying the PIF contract of the spec:
training keys map to their (distinct) positions in the key list; any other
key aliases slot `0` when the key set is non-empty. Used to instantiate the
abstract `build` parameter on concrete inputs. -/
def refPif {K : Type} [DecidableEq K] (keys : List K) : Pif K :=
  ⟨fun k _ =>
    match keyIndex k keys with
    | some i => some i
    | none => if keys.isEmpty then none else some 0⟩

/-- A concrete hash function for `Nat` keys. -/
def refHash (n : Nat) : Nat := n

/-- A concrete hash function for byte-string keys. -/
def refHashB (l : List Nat) : Nat := l.foldr (fun b a => a * 256 + b + 1) 0

/-- When the uniqueness scan reports `true`, every sequence was sliced
without a panic, the slices are pairwise distinct, and none of them was
already in the `seen` accumulator. -/
theorem allUniqueFrom_ok_true {a b : Nat} :
    ∀ (strs seen : List (List Nat)), allUniqueFrom a b strs seen = .ok true →
      (strs.map (fun s => sliceOf s a b)).Nodup ∧ ∀ s ∈ strs, sliceOf s a b ∉ seen := by
  intro strs
  induction strs with
  | nil => intro seen _; exact ⟨List.nodup_nil, by simp⟩
  | cons s rest ih =>
    intro seen h
    rw [allUniqueFrom] at h
    split at h
    · split at h
      · exact absurd h (by simp)
      · rename_i hv hm
        obtain ⟨hnd, hni⟩ := ih (sliceOf s a b :: seen) h
        refine ⟨List.nodup_cons.mpr ⟨?_, hnd⟩, ?_⟩
        · intro hmem
          obtain ⟨t, ht, hts⟩ := List.mem_map.mp hmem
          exact hni t ht (by rw [hts]; exact List.mem_cons_self _ _)
        · intro t ht
          rcases List.mem_cons.mp ht with hts | ht2
          · rw [hts]; exact hm
          · exact fun hc => hni t ht2 (List.mem_cons_of_mem _ hc)
    · exact absurd h (by simp)

/-- When the uniqueness scan reports `false` starting from an empty `seen`
accumulator, the slices of the input cannot be pairwise distinct. -/
theorem allUniqueFrom_ok_false {a b : Nat} :
    ∀ (strs seen : List (List Nat)), allUniqueFrom a b strs seen = .ok false →
      (∃ s ∈ strs, sliceOf s a b ∈ seen) ∨ ¬ (strs.map (fun s => sliceOf s a b)).Nodup := by
  intro strs
  induction strs with
  | nil => intro seen h; exact absurd h (by simp [allUniqueFrom])
  | cons s rest ih =>
    intro seen h
    rw [allUniqueFrom] at h
    split at h
    · split at h
      · rename_i hv hm
        exact Or.inl ⟨s, List.mem_cons_self _ _, hm⟩
      · rcases ih (sliceOf s a b :: seen) h with ⟨t, ht, hts⟩ | hnd
        · rcases List.mem_cons.mp hts with hts2 | hts2
          · refine Or.inr (fun hnd => ?_)
            exact (List.nodup_cons.mp hnd).1 (List.mem_map.mpr ⟨t, ht, hts2⟩)
          · exact Or.inl ⟨t, List.mem_cons_of_mem _ ht, hts2⟩
        · exact Or.inr (fun hc => hnd (List.nodup_cons.mp hc).2)
    · exact absurd h (by simp)

/-- The end-growing loop of the range finder returns `e` exactly when the
uniqueness check succeeds at `e` and failed at every earlier candidate. -/
theorem findEnd_ok {strs : List (List Nat)} {a : Nat} :
    ∀ (fuel e0 e : Nat), findEnd strs a fuel e0 = .ok e →
      allUniqueFrom a e strs [] = .ok true ∧
        ∀ e2, e0 ≤ e2 → e2 < e → allUniqueFrom a e2 strs [] = .ok false := by
  intro fuel
  induction fuel with
  | zero => intro e0 e h; exact absurd h (by simp [findEnd])
  | succ f ih =>
    intro e0 e h
    rw [findEnd] at h
    split at h
    · exact absurd h (by simp)
    · exact absurd h (by simp)
    · rename_i hu
      obtain rfl : e0 = e := by injection h
      exact ⟨hu, fun e2 h1 h2 => absurd (Nat.lt_of_le_of_lt h1 h2) (Nat.lt_irrefl _)⟩
    · rename_i hu
      obtain ⟨h1, h2⟩ := ih (e0 + 1) e h
      refine ⟨h1, fun e2 hle hlt => ?_⟩
      rcases Nat.eq_or_lt_of_le hle with heq | hlt2
      · rw [← heq]; exact hu
      · exact h2 e2 hlt2 hlt

/-- On the empty collection the common-prefix loop never exits: every
position is vacuously all-equal, so `start` is incremented forever. -/
theorem findStart_nil (fuel : Nat) : ∀ start, findStart [] fuel start = .fuelOut := by
  induction fuel with
  | zero => intro start; rfl
  | succ f ih =>
    intro start
    rw [findStart]
    show (match allEqualAt start [] with
      | .panic => EvalRes.panic
      | .fuelOut => .fuelOut
      | .ok true => findStart [] f (start + 1)
      | .ok false => .ok start) = _
    rw [show allEqualAt start [] = .ok true from rfl]
    exact ih (start + 1)

/-- On a one-element collection the all-equal check succeeds at every
in-bounds position and panics at the first out-of-bounds one. -/
theorem allEqualAt_single (k : List Nat) (start : Nat) :
    allEqualAt start [k] = if start < k.length then .ok true else .panic := by
  by_cases h : start < k.length <;> simp [allEqualAt, allEqualFrom, h]

/-- On a one-element collection the common-prefix loop can only panic or run
out of fuel, and with enough fuel it panics by indexing past the key's end. -/
theorem findStart_single (k : List Nat) :
    ∀ (fuel start : Nat),
      (findStart [k] fuel start = .panic ∨ findStart [k] fuel start = .fuelOut) ∧
        (start ≤ k.length → k.length < start + fuel → findStart [k] fuel start = .panic) := by
  intro fuel
  induction fuel with
  | zero =>
    intro start
    exact ⟨Or.inr rfl, fun h1 h2 => absurd (Nat.lt_of_le_of_lt h1 h2) (Nat.lt_irrefl _)⟩
  | succ f ih =>
    intro start
    rw [findStart, allEqualAt_single]
    by_cases h : start < k.length
    · rw [if_pos h]
      show (findStart [k] f (start + 1) = _ ∨ findStart [k] f (start + 1) = _) ∧ _
      refine ⟨(ih (start + 1)).1, fun _ h2 => (ih (start + 1)).2 h ?_⟩
      omega
    · rw [if_neg h]
      exact ⟨Or.inl rfl, fun _ _ => rfl⟩

/-- A normal return `(s, e)` of the range finder certifies that slicing every
sequence to `[s, e)` gives pairwise-distinct results, and that every shorter
candidate end failed the uniqueness check. -/
theorem smallestUncommonRange_ok {strs : List (List Nat)} {fuel s e : Nat}
    (h : smallestUncommonRange strs fuel = .ok (s, e)) :
    (strs.map (fun t => sliceOf t s e)).Nodup ∧
      ∀ e2, s < e2 → e2 < e → ¬ (strs.map (fun t => sliceOf t s e2)).Nodup := by
  rw [smallestUncommonRange] at h
  split at h
  · exact absurd h (by simp)
  · exact absurd h (by simp)
  · rename_i s0 hs0
    split at h
    · exact absurd h (by simp)
    · exact absurd h (by simp)
    · rename_i e0 he0
      have hpair : (s0, e0) = (s, e) := by injection h
      have hs : s0 = s := congrArg Prod.fst hpair
      have he : e0 = e := congrArg Prod.snd hpair
      subst hs; subst he
      obtain ⟨h1, h2⟩ := findEnd_ok fuel (s0 + 1) e0 he0
      refine ⟨(allUniqueFrom_ok_true strs [] h1).1, fun e2 hgt hlt hnd => ?_⟩
      have hfalse := h2 e2 hgt hlt
      rcases allUniqueFrom_ok_false strs [] hfalse with ⟨t, _, hts⟩ | hnd2
      · exact absurd hts (by simp)
      · exact hnd2 hnd

/-- On a one-element collection the whole range finder can only panic or run
out of fuel; with fuel beyond the key length it panics. -/
theorem smallestUncommonRange_single (k : List Nat) (fuel : Nat) :
    (smallestUncommonRange [k] fuel = .panic ∨
      smallestUncommonRange [k] fuel = .fuelOut) ∧
      (k.length < fuel → smallestUncommonRange [k] fuel = .panic) := by
  rw [smallestUncommonRange]
  obtain ⟨h1, h2⟩ := findStart_single k fuel 0
  constructor
  · rcases h1 with h | h <;> rw [h]
    · exact Or.inl rfl
    · exact Or.inr rfl
  · intro hlt
    rw [h2 (Nat.zero_le _) (by omega)]

theorem length_growTo {V : Type} (xs : List (Option V)) (n : Nat) :
    (growTo xs n).length = max xs.length n := by
  simp only [growTo, List.length_append, List.length_replicate]
  omega

theorem length_growHashes (hs : List Nat) (n : Nat) :
    (growHashes hs n).length = max hs.length n := by
  simp only [growHashes, List.length_append, List.length_replicate]
  omega

theorem getElem?_growTo {V : Type} (xs : List (Option V)) (n i : Nat) (h : i < xs.length) :
    (growTo xs n)[i]? = xs[i]? :=
  List.getElem?_append_left h

theorem getElem?_growHashes (hs : List Nat) (n i : Nat) (h : i < hs.length) :
    (growHashes hs n)[i]? = hs[i]? :=
  List.getElem?_append_left h

/-- Every element fed through a successful `Option`-valued map run lands in
the output. -/
theorem optMapList_mem {α β : Type} (f : α → Option β) :
    ∀ (l : List α) (l2 : List β), optMapList f l = some l2 →
      ∀ a ∈ l, ∀ b, f a = some b → b ∈ l2 := by
  intro l
  induction l with
  | nil => intro l2 _ a ha; exact absurd ha (List.not_mem_nil a)
  | cons a0 rest ih =>
    intro l2 h a ha b hb
    rw [optMapList] at h
    split at h
    · exact absurd h (by simp)
    · rename_i b0 hb0
      split at h
      · exact absurd h (by simp)
      · rename_i bs hbs
        obtain rfl : b0 :: bs = l2 := by injection h
        rcases List.mem_cons.mp ha with rfl | ha2
        · rw [hb0] at hb
          obtain rfl : b0 = b := by injection hb
          exact List.mem_cons_self _ _
        · exact List.mem_cons_of_mem _ (ih bs hbs a ha2 b hb)

/-- A successful `Option`-valued map run is an ordinary `map`: the function
returned `some` on every element. -/
theorem optMapList_eq_map {α : Type} (f : α → Option Nat) :
    ∀ (l : List α) (l2 : List Nat), optMapList f l = some l2 →
      l2 = l.map (fun a => (f a).getD 0) ∧ ∀ a ∈ l, f a = some ((f a).getD 0) := by
  intro l
  induction l with
  | nil =>
    intro l2 h
    obtain rfl : [] = l2 := by injection h
    exact ⟨rfl, by simp⟩
  | cons a0 rest ih =>
    intro l2 h
    rw [optMapList] at h
    split at h
    · exact absurd h (by simp)
    · rename_i b0 hb0
      split at h
      · exact absurd h (by simp)
      · rename_i bs hbs
        obtain rfl : b0 :: bs = l2 := by injection h
        obtain ⟨hmap, hall⟩ := ih bs hbs
        refine ⟨?_, ?_⟩
        · rw [List.map_cons, ← hmap, hb0]
          rfl
        · intro a ha
          rcases List.mem_cons.mp ha with rfl | ha2
          · rw [hb0]; rfl
          · exact hall a ha2

/-- The first components of a successful pair-producing map run over a key
list are the keys themselves. -/
theorem optMapList_fst {K V : Type} (f : K → Option (K × V))
    (hf : ∀ a b, f a = some b → b.1 = a) :
    ∀ (l : List K) (l2 : List (K × V)), optMapList f l = some l2 →
      l2.map Prod.fst = l := by
  intro l
  induction l with
  | nil =>
    intro l2 h
    obtain rfl : [] = l2 := by injection h
    rfl
  | cons a0 rest ih =>
    intro l2 h
    rw [optMapList] at h
    split at h
    · exact absurd h (by simp)
    · rename_i b0 hb0
      split at h
      · exact absurd h (by simp)
      · rename_i bs hbs
        obtain rfl : b0 :: bs = l2 := by injection h
        rw [List.map_cons, ih bs hbs, hf a0 b0 hb0]

/-- A function returning each pair at its own key maps the key list back to
the pair list. -/
theorem optMapList_of_forall {K V : Type} (f : K → Option (K × V)) :
    ∀ (l : List (K × V)), (∀ kv ∈ l, f kv.1 = some kv) →
      optMapList f (l.map Prod.fst) = some l := by
  intro l
  induction l with
  | nil => intro _; rfl
  | cons kv0 rest ih =>
    intro hall
    rw [List.map_cons, optMapList, hall kv0 (List.mem_cons_self _ _),
      ih (fun kv hkv => hall kv (List.mem_cons_of_mem _ hkv))]

/-- A successful rebuild pass produced exactly one slot per triple (the
`unwrap` succeeded on each), appended them in order to the index
accumulator, and only ever grew the running maximum. -/
theorem insertLoop_idxs {K V : Type} (p : Pif K) :
    ∀ (ts : List (K × V × Nat)) (vals : List (Option V)) (hs : List Nat)
      (maxIdx : Nat) (idxs : List Nat) (vals2 : List (Option V)) (hs2 : List Nat)
      (max2 : Nat) (idxs2 : List Nat),
      insertLoop p ts vals hs maxIdx idxs = some (vals2, hs2, max2, idxs2) →
      ∃ news, optMapList (fun t => p.slot t.1 t.2.2) ts = some news ∧
        idxs2 = idxs ++ news ∧ maxIdx ≤ max2 ∧ ∀ i ∈ news, i ≤ max2 := by
  intro ts
  induction ts with
  | nil =>
    intro vals hs maxIdx idxs vals2 hs2 max2 idxs2 h
    rw [insertLoop] at h
    simp only [Option.some.injEq, Prod.mk.injEq] at h
    obtain ⟨rfl, rfl, rfl, rfl⟩ := h
    exact ⟨[], rfl, by simp, Nat.le_refl _, by simp⟩
  | cons t0 rest ih =>
    obtain ⟨k, v, h0⟩ := t0
    intro vals hs maxIdx idxs vals2 hs2 max2 idxs2 h
    rw [insertLoop] at h
    split at h
    · exact absurd h (by simp)
    · rename_i idx hslot
      obtain ⟨news2, hmap, hidxs, hmax, hbound⟩ :=
        ih _ _ _ _ vals2 hs2 max2 idxs2 h
      refine ⟨idx :: news2, ?_, ?_, ?_, ?_⟩
      · simp only [optMapList]
        rw [show p.slot k h0 = some idx from hslot, hmap]
      · rw [hidxs, List.append_assoc]
        rfl
      · exact Nat.le_trans (Nat.le_max_left _ idx) hmax
      · intro i hi
        rcases List.mem_cons.mp hi with rfl | hi2
        · exact Nat.le_trans (Nat.le_max_right maxIdx i) hmax
        · exact hbound i hi2

/-- Slots no triple of the pass writes to keep their value-array and
hash-array contents across a successful pass. -/
theorem insertLoop_preserve {K V : Type} (p : Pif K) :
    ∀ (ts : List (K × V × Nat)) (vals : List (Option V)) (hs : List Nat)
      (maxIdx : Nat) (idxs : List Nat) (vals2 : List (Option V)) (hs2 : List Nat)
      (max2 : Nat) (idxs2 : List Nat),
      insertLoop p ts vals hs maxIdx idxs = some (vals2, hs2, max2, idxs2) →
      ∀ q, q < vals.length → q < hs.length →
        (∀ t ∈ ts, p.slot t.1 t.2.2 ≠ some q) →
        vals2[q]? = vals[q]? ∧ hs2[q]? = hs[q]? := by
  intro ts
  induction ts with
  | nil =>
    intro vals hs maxIdx idxs vals2 hs2 max2 idxs2 h q _ _ _
    rw [insertLoop] at h
    simp only [Option.some.injEq, Prod.mk.injEq] at h
    obtain ⟨rfl, rfl, rfl, rfl⟩ := h
    exact ⟨rfl, rfl⟩
  | cons t0 rest ih =>
    obtain ⟨k, v, h0⟩ := t0
    intro vals hs maxIdx idxs vals2 hs2 max2 idxs2 h q hqv hqh hnw
    rw [insertLoop] at h
    split at h
    · exact absurd h (by simp)
    · rename_i idx hslot
      have hne : idx ≠ q := fun he =>
        hnw (k, v, h0) (List.mem_cons_self _ _) (he ▸ hslot)
      have hv2 : ((growTo vals (max maxIdx idx + 1)).set idx (some v))[q]? = vals[q]? := by
        rw [List.getElem?_set_ne hne, getElem?_growTo _ _ _ hqv]
      have hh2 : ((growHashes hs (max maxIdx idx + 1)).set idx h0)[q]? = hs[q]? := by
        rw [List.getElem?_set_ne hne, getElem?_growHashes _ _ _ hqh]
      have hlv : q < ((growTo vals (max maxIdx idx + 1)).set idx (some v)).length := by
        rw [List.length_set, length_growTo]; omega
      have hlh : q < ((growHashes hs (max maxIdx idx + 1)).set idx h0).length := by
        rw [List.length_set, length_growHashes]; omega
      obtain ⟨hpv, hph⟩ := ih _ _ _ _ vals2 hs2 max2 idxs2 h q hlv hlh
        (fun t ht => hnw t (List.mem_cons_of_mem _ ht))
      exact ⟨hpv.trans hv2, hph.trans hh2⟩

/-- After a successful pass, a slot written by some triple — all of whose
writers carry the same value and hash — holds exactly that value and hash. -/
theorem insertLoop_write {K V : Type} (p : Pif K) :
    ∀ (ts : List (K × V × Nat)) (vals : List (Option V)) (hs : List Nat)
      (maxIdx : Nat) (idxs : List Nat) (vals2 : List (Option V)) (hs2 : List Nat)
      (max2 : Nat) (idxs2 : List Nat),
      insertLoop p ts vals hs maxIdx idxs = some (vals2, hs2, max2, idxs2) →
      ∀ idx v h0, (∃ t ∈ ts, p.slot t.1 t.2.2 = some idx) →
        (∀ t ∈ ts, p.slot t.1 t.2.2 = some idx → t.2.1 = v ∧ t.2.2 = h0) →
        vals2[idx]? = some (some v) ∧ hs2[idx]? = some h0 := by
  intro ts
  induction ts with
  | nil =>
    intro vals hs maxIdx idxs vals2 hs2 max2 idxs2 _ idx v h0 hex _
    obtain ⟨t, ht, _⟩ := hex
    exact absurd ht (List.not_mem_nil t)
  | cons t0 rest ih =>
    obtain ⟨k, v0, hv0⟩ := t0
    intro vals hs maxIdx idxs vals2 hs2 max2 idxs2 h idx v h0 hex hall
    rw [insertLoop] at h
    split at h
    · exact absurd h (by simp)
    · rename_i idx0 hslot
      by_cases hrest : ∃ t ∈ rest, p.slot t.1 t.2.2 = some idx
      · exact ih _ _ _ _ vals2 hs2 max2 idxs2 h idx v h0 hrest
          (fun t ht hw => hall t (List.mem_cons_of_mem _ ht) hw)
      · -- the head triple is the unique writer of idx
        obtain ⟨t, ht, hw⟩ := hex
        have ht0 : t = (k, v0, hv0) := by
          rcases List.mem_cons.mp ht with h1 | h1
          · exact h1
          · exact absurd ⟨t, h1, hw⟩ hrest
        rw [ht0] at hw
        obtain ⟨hpv, hph⟩ := hall (k, v0, hv0) (List.mem_cons_self _ _) hw
        obtain rfl : idx0 = idx := by rw [hslot] at hw; injection hw
        obtain rfl : v0 = v := hpv
        obtain rfl : hv0 = h0 := hph
        have hlv : idx0 < ((growTo vals (max maxIdx idx0 + 1)).set idx0 (some v0)).length := by
          rw [List.length_set, length_growTo]; omega
        have hlh : idx0 < ((growHashes hs (max maxIdx idx0 + 1)).set idx0 hv0).length := by
          rw [List.length_set, length_growHashes]; omega
        obtain ⟨hpv2, hph2⟩ := insertLoop_preserve p rest _ _ _ _ vals2 hs2 max2 idxs2 h
          idx0 hlv hlh (fun t2 ht2 hw2 => hrest ⟨t2, ht2, hw2⟩)
        constructor
        · rw [hpv2, List.getElem?_set_self (by rw [length_growTo]; omega)]
        · rw [hph2, List.getElem?_set_self (by rw [length_growHashes]; omega)]

/-- The value and hash arrays leave a successful pass with the same length,
namely `max_idx + 1` whenever at least one triple was processed. -/
theorem insertLoop_lengths {K V : Type} (p : Pif K) :
    ∀ (ts : List (K × V × Nat)) (vals : List (Option V)) (hs : List Nat)
      (maxIdx : Nat) (idxs : List Nat) (vals2 : List (Option V)) (hs2 : List Nat)
      (max2 : Nat) (idxs2 : List Nat),
      insertLoop p ts vals hs maxIdx idxs = some (vals2, hs2, max2, idxs2) →
      vals.length ≤ maxIdx + 1 → hs.length ≤ maxIdx + 1 →
      (ts = [] ∧ vals2 = vals ∧ hs2 = hs ∧ max2 = maxIdx) ∨
        (vals2.length = max2 + 1 ∧ hs2.length = max2 + 1) := by
  intro ts
  induction ts with
  | nil =>
    intro vals hs maxIdx idxs vals2 hs2 max2 idxs2 h _ _
    rw [insertLoop] at h
    simp only [Option.some.injEq, Prod.mk.injEq] at h
    obtain ⟨rfl, rfl, rfl, rfl⟩ := h
    exact Or.inl ⟨rfl, rfl, rfl, rfl⟩
  | cons t0 rest ih =>
    obtain ⟨k, v, h0⟩ := t0
    intro vals hs maxIdx idxs vals2 hs2 max2 idxs2 h hlv hlh
    rw [insertLoop] at h
    split at h
    · exact absurd h (by simp)
    · rename_i idx hslot
      have hv2 : ((growTo vals (max maxIdx idx + 1)).set idx (some v)).length =
          max maxIdx idx + 1 := by
        rw [List.length_set, length_growTo]; omega
      have hh2 : ((growHashes hs (max maxIdx idx + 1)).set idx h0).length =
          max maxIdx idx + 1 := by
        rw [List.length_set, length_growHashes]; omega
      rcases ih _ _ _ _ vals2 hs2 max2 idxs2 h (by omega) (by omega) with
        ⟨_, rfl, rfl, rfl⟩ | ⟨h1, h2⟩
      · exact Or.inr ⟨hv2, hh2⟩
      · exact Or.inr ⟨h1, h2⟩

/-- Postcondition of a successful `extendCore`: the new key list and index
function are installed, the keys are pairwise distinct, the two parallel
arrays have equal length, and every pair of the batch sits in its assigned
slot with its verification hash. -/
theorem extendCore_spec {K V : Type} (hash : K → Nat) (build : List K → Pif K)
    (combined : List (K × V)) (M : PhMap K V)
    (h : extendCore hash build combined = some M) :
    M.keys = combined.map Prod.fst ∧
      M.to_index = build (combined.map Prod.fst) ∧
      (combined.map Prod.fst).Nodup ∧
      M.values.length = M.top_level_hashes.length ∧
      ∀ kv ∈ combined, ∃ idx,
        pifGet hash M.to_index kv.1 = some idx ∧
        idx < M.values.length ∧
        M.values[idx]? = some (some kv.2) ∧
        M.top_level_hashes[idx]? = some (hash kv.1) := by
  simp only [extendCore] at h
  split at h
  · exact absurd h (by simp)
  · rename_i out vals hs max2 idxs hloop
    split at h
    · rename_i hnodup
      obtain rfl : (⟨combined.map Prod.fst, hs, vals,
          build (combined.map Prod.fst)⟩ : PhMap K V) = M := by injection h
      obtain ⟨news, hmap, hidxs, hmax, hbound⟩ :=
        insertLoop_idxs (build (combined.map Prod.fst)) _ _ _ _ _ vals hs max2 idxs hloop
      rw [List.nil_append] at hidxs
      have hnodup : news.Nodup := hidxs ▸ hnodup
      obtain ⟨hneq, hall⟩ := optMapList_eq_map _ _ news hmap
      have hnews : news = (combined.map Prod.fst).map
          (fun k => ((build (combined.map Prod.fst)).slot k (hash k)).getD 0) := by
        rw [hneq, List.map_map, List.map_map]
        rfl
      have hkeysnd : (combined.map Prod.fst).Nodup :=
        List.Nodup.of_map _ (hnews ▸ hnodup)
      have hlen : vals.length = hs.length := by
        rcases insertLoop_lengths (build (combined.map Prod.fst)) _ _ _ _ _
            vals hs max2 idxs hloop (by simp) (by simp) with
          ⟨htriv, rfl, rfl, rfl⟩ | ⟨h1, h2⟩
        · have hcomb : combined = [] := List.map_eq_nil_iff.mp htriv
          subst hcomb
          simp
        · rw [h1, h2]
      refine ⟨rfl, rfl, hkeysnd, hlen, fun kv hkv => ?_⟩
      · have htm : (kv.1, kv.2, hash kv.1) ∈
            combined.map (fun kv => (kv.1, kv.2, hash kv.1)) := by
          have := List.mem_map_of_mem (fun kv : K × V => (kv.1, kv.2, hash kv.1)) hkv
          simpa using this
        have hslot : (build (combined.map Prod.fst)).slot kv.1 (hash kv.1) =
            some (((build (combined.map Prod.fst)).slot kv.1 (hash kv.1)).getD 0) :=
          hall _ htm
        have hmem : (((build (combined.map Prod.fst)).slot kv.1 (hash kv.1)).getD 0) ∈ news :=
          optMapList_mem _ _ news hmap _ htm _ hslot
        have hlt : (((build (combined.map Prod.fst)).slot kv.1 (hash kv.1)).getD 0) <
            vals.length := by
          rcases insertLoop_lengths (build (combined.map Prod.fst)) _ _ _ _ _
              vals hs max2 idxs hloop (by simp) (by simp) with
            ⟨htriv, rfl, rfl, rfl⟩ | ⟨h1, h2⟩
          · rw [htriv] at hmap
            obtain rfl : ([] : List Nat) = news := by injection hmap
            exact absurd hmem (List.not_mem_nil _)
          · have := hbound _ hmem
            omega
        have hinjs := List.inj_on_of_nodup_map (hnews ▸ hnodup)
        have hinjf := List.inj_on_of_nodup_map hkeysnd
        obtain ⟨hw1, hw2⟩ := insertLoop_write (build (combined.map Prod.fst)) _ _ _ _ _
          vals hs max2 idxs hloop _ kv.2 (hash kv.1)
          ⟨(kv.1, kv.2, hash kv.1), htm, hslot⟩
          (by
            intro t ht hwt
            obtain ⟨kv2, hkv2, rfl⟩ := List.mem_map.mp ht
            have hs2 : ((build (combined.map Prod.fst)).slot kv2.1 (hash kv2.1)).getD 0 =
                ((build (combined.map Prod.fst)).slot kv.1 (hash kv.1)).getD 0 := by
              have := hall _ ht
              rw [this] at hwt
              injection hwt
            have hk12 : kv2.1 = kv.1 :=
              hinjs (List.mem_map_of_mem _ hkv2) (List.mem_map_of_mem _ hkv) hs2
            have : kv2 = kv := hinjf hkv2 hkv hk12
            rw [this]
            exact ⟨rfl, rfl⟩)
        exact ⟨_, hall _ htm, hlt, hw1, hw2⟩
    · exact absurd h (by simp)

/-- A batch whose key list has a repeat can never pass the `all_unique`
assertion: equal keys hash equally and so receive equal slots. -/
theorem extendCore_dup {K V : Type} (hash : K → Nat) (build : List K → Pif K)
    (combined : List (K × V)) (hdup : ¬ (combined.map Prod.fst).Nodup) :
    extendCore hash build combined = none := by
  cases hc : extendCore hash build combined with
  | none => rfl
  | some M => exact absurd (extendCore_spec hash build combined M hc).2.2.1 hdup

/-- `extend` on the empty map is `extendCore` on the batch alone: there are
no old pairs to drain. -/
theorem extend_default {K V : Type} (hash : K → Nat) (build : List K → Pif K)
    (kvs : List (K × V)) :
    extend hash build (defaultMap build) kvs = extendCore hash build kvs :=
  rfl

/-- After a successful build, draining the keys recovers exactly the pairs
the map was built from. -/
theorem extend_recover {K V : Type} (hash : K → Nat) (build : List K → Pif K)
    (kvs : List (K × V)) (M : PhMap K V)
    (h : extendCore hash build kvs = some M) :
    optMapList (fun k => (takeValue hash M k).map (fun v => (k, v))) M.keys = some kvs := by
  obtain ⟨hkeys, _, _, _, hper⟩ := extendCore_spec hash build kvs M h
  rw [hkeys]
  refine optMapList_of_forall _ kvs (fun kv hkv => ?_)
  obtain ⟨idx, hpg, _, hval, _⟩ := hper kv hkv
  simp only [takeValue, hpg, hval]
  simp

/-- Composition: extending a map built from `kvsA` with a further batch
`kvsB` performs exactly the fresh rebuild over `kvsA ++ kvsB`. -/
theorem extend_extend {K V : Type} (hash : K → Nat) (build : List K → Pif K)
    (kvsA kvsB : List (K × V)) (M : PhMap K V)
    (hA : extend hash build (defaultMap build) kvsA = some M) :
    extend hash build M kvsB = extendCore hash build (kvsA ++ kvsB) := by
  rw [extend_default] at hA
  rw [extend, extend_recover hash build kvsA M hA]

/-- `extend` with a batch containing a repeated key fails on any map. -/
theorem extend_dup {K V : Type} (hash : K → Nat) (build : List K → Pif K)
    (m : PhMap K V) (kvs : List (K × V)) (hdup : ¬ (kvs.map Prod.fst).Nodup) :
    extend hash build m kvs = none := by
  rw [extend]
  split
  · rfl
  · rename_i oldPairs _
    refine extendCore_dup hash build _ (fun hnd => hdup ?_)
    rw [List.map_append] at hnd
    exact hnd.of_append_right

/-- Invariant of the teardown scan: the drop-order list stays duplicate-free
and only grows rightward, the `dropped` bitvec keeps its length and tracks
exactly the recorded indices, and every processed key's in-range slot ends
the scan with its bit set. -/
theorem dropLoop_inv {K : Type} (ds : K → Option Nat) :
    ∀ (keys : List K) (dropped : List Bool) (order : List Nat),
      order.Nodup → (∀ q, dropped[q]? = some true ↔ q ∈ order) →
      (dropLoop ds keys dropped order).2.Nodup ∧
        (∀ q, (dropLoop ds keys dropped order).1[q]? = some true ↔
          q ∈ (dropLoop ds keys dropped order).2) ∧
        (dropLoop ds keys dropped order).1.length = dropped.length ∧
        (∃ ext, (dropLoop ds keys dropped order).2 = order ++ ext) ∧
        (∀ k ∈ keys, ∀ i, ds k = some i → i < dropped.length →
          (dropLoop ds keys dropped order).1[i]? = some true) := by
  intro keys
  induction keys with
  | nil =>
    intro dropped order hnd hiff
    exact ⟨hnd, hiff, rfl, ⟨[], by rw [dropLoop]; simp⟩,
      fun k hk => absurd hk (List.not_mem_nil k)⟩
  | cons k0 rest ih =>
    intro dropped order hnd hiff
    rw [dropLoop]
    cases hds : ds k0 with
    | none =>
      dsimp only
      obtain ⟨h1, h2, h3, h4, h5⟩ := ih dropped order hnd hiff
      refine ⟨h1, h2, h3, h4, fun k hk i hdsk hilt => ?_⟩
      rcases List.mem_cons.mp hk with rfl | hk2
      · rw [hds] at hdsk; exact absurd hdsk (by simp)
      · exact h5 k hk2 i hdsk hilt
    | some idx =>
      dsimp only
      by_cases hbit : dropped[idx]? = some false
      · rw [if_pos hbit]
        have hidxlt : idx < dropped.length := by
          by_contra hge
          rw [List.getElem?_eq_none (by omega)] at hbit
          exact absurd hbit (by simp)
        have hnotin : idx ∉ order := fun hin => by
          rw [← hiff idx, hbit] at hin
          exact absurd hin (by simp)
        have hnd2 : (order ++ [idx]).Nodup := by
          simp [List.nodup_append, hnd, hnotin]
        have hiff2 : ∀ q, (dropped.set idx true)[q]? = some true ↔ q ∈ order ++ [idx] := by
          intro q
          by_cases hq : idx = q
          · subst hq
            rw [List.getElem?_set_self hidxlt]
            simp
          · rw [List.getElem?_set_ne hq, hiff q]
            constructor
            · exact fun h => List.mem_append_left _ h
            · intro h
              rcases List.mem_append.mp h with h2 | h2
              · exact h2
              · exact absurd (List.mem_singleton.mp h2).symm hq
        obtain ⟨h1, h2, h3, ⟨ext, hext⟩, h5⟩ :=
          ih (dropped.set idx true) (order ++ [idx]) hnd2 hiff2
        refine ⟨h1, h2, by rw [h3, List.length_set], ⟨idx :: ext, by
          rw [hext, List.append_assoc]
          rfl⟩, fun k hk i hdsk hilt => ?_⟩
        rcases List.mem_cons.mp hk with rfl | hk2
        · rw [hds] at hdsk
          obtain rfl : idx = i := by injection hdsk
          rw [h2 idx, hext]
          simp
        · exact h5 k hk2 i hdsk (by rw [List.length_set]; exact hilt)
      · rw [if_neg hbit]
        obtain ⟨h1, h2, h3, ⟨ext, hext⟩, h5⟩ := ih dropped order hnd hiff
        refine ⟨h1, h2, h3, ⟨ext, hext⟩, fun k hk i hdsk hilt => ?_⟩
        rcases List.mem_cons.mp hk with rfl | hk2
        · rw [hds] at hdsk
          obtain rfl : idx = i := by injection hdsk
          have hsome : dropped[idx]? = some true := by
            rcases hx : dropped[idx]? with _ | b
            · rw [List.getElem?_eq_none_iff] at hx; omega
            · cases b
              · exact absurd hx hbit
              · rfl
          rw [h2 idx, hext]
          have : idx ∈ order := (hiff idx).mp hsome
          exact List.mem_append_left ext this
        · exact h5 k hk2 i hdsk hilt

/-- Map built by `extend` on the empty map from `[(1,10),(2,20)]` with the
reference index function; used to witness C1. -/
def c1Map : PhMap Nat Nat := ⟨[1, 2], [1, 2, 0], [some 10, some 20, none], refPif [1, 2]⟩

/-- Map built from `[(5,50)]`; used to witness C3. -/
def c3Map : PhMap Nat Nat := ⟨[5], [5, 0], [some 50, none], refPif [5]⟩

/-- Map built from `[(1,10)]`; used to witness C4. -/
def c4MapA : PhMap Nat Nat := ⟨[1], [1, 0], [some 10, none], refPif [1]⟩

/-- Map built from `[(1,10),(2,20)]`; used to witness C4. -/
def c4MapAB : PhMap Nat Nat := ⟨[1, 2], [1, 2, 0], [some 10, some 20, none], refPif [1, 2]⟩

/-- Two-key map whose slots 0 and 1 are both occupied; used for C8. -/
def c8Map : PhMap Nat Nat := ⟨[0, 1], [0, 1], [some 10, some 20], refPif [0, 1]⟩

/-- Well-behaved two-key map; used to witness the amended C8. -/
def c8GoodMap : PhMap Nat Nat := ⟨[0, 1], [0, 1], [some 1, some 2], refPif [0, 1]⟩

/-- Map built from `[(3,7)]`; used to witness C9. -/
def c9Map : PhMap Nat Nat := ⟨[3], [3, 0], [some 7, none], refPif [3]⟩

/-- String map with established trim range `0..1`; used to witness C7. -/
def c7Map : PhStrMap Nat := ⟨0, 1, defaultMap refPif⟩

/-- C1: on a batch of distinct keys, a single `extend` on the empty map makes
`get` return each stored pair's value; and `get` of any query key not in the
batch whose hash differs from the verification hash stored at the slot the
index function assigns it returns `none`. -/
theorem c1_round_trip {K V : Type} (hash : K → Nat) (build : List K → Pif K)
    (kvs : List (K × V)) (M : PhMap K V)
    (hM : extend hash build (defaultMap build) kvs = some M) :
    (∀ kv ∈ kvs, get hash M kv.1 = some kv.2) ∧
      ∀ q i, q ∉ kvs.map Prod.fst → pifGet hash M.to_index q = some i →
        M.top_level_hashes[i]? ≠ some (hash q) → get hash M q = none := by
  rw [extend_default] at hM
  obtain ⟨_, _, _, _, hper⟩ := extendCore_spec hash build kvs M hM
  constructor
  · intro kv hkv
    obtain ⟨idx, hpg, hlt, hval, hhash⟩ := hper kv hkv
    simp only [get, hpg, hhash, hval]
    simp
  · intro q i _ hpg hne
    simp only [get, hpg]
    cases hh : M.top_level_hashes[i]? with
    | none => rfl
    | some h2 =>
      rw [hh] at hne
      have hnh : ¬ h2 = hash q := fun he => hne (by rw [he])
      simp [hnh]

/-- Witness for C1: the two stored pairs are returned and an absent key that
aliases slot 0 with a mismatched hash is rejected. -/
theorem c1_round_trip_witness :
    get refHash c1Map 1 = some 10 ∧ get refHash c1Map 2 = some 20 ∧
      get refHash c1Map 3 = none := by
  have hM : extend refHash refPif (defaultMap refPif) [(1, 10), (2, 20)] = some c1Map := rfl
  have hc := c1_round_trip refHash refPif [(1, 10), (2, 20)] c1Map hM
  exact ⟨hc.1 (1, 10) (by simp), hc.1 (2, 20) (by simp),
    hc.2 3 0 (by decide) rfl (by decide)⟩

/-- C2: `extend` with a batch whose key list repeats a key fails (the
`all_unique` assertion over the produced slots cannot pass, since equal keys
receive equal slots) instead of completing with one of the values. -/
theorem c2_duplicate_batch {K V : Type} (hash : K → Nat) (build : List K → Pif K)
    (m : PhMap K V) (kvs : List (K × V)) (hdup : ¬ (kvs.map Prod.fst).Nodup) :
    extend hash build m kvs = none :=
  extend_dup hash build m kvs hdup

/-- Witness for C2 on the batch `[(1,10),(1,20)]`. -/
theorem c2_duplicate_batch_witness :
    extend refHash refPif (defaultMap refPif) [(1, 10), (1, 20)] = none :=
  c2_duplicate_batch refHash refPif (defaultMap refPif) [(1, 10), (1, 20)] (by decide)

/-- C3 counterexample: on the string map, `extend` with an empty batch never
terminates — `smallest_uncommon_range` of an empty collection finds every
position vacuously all-equal and increments `start` forever, so no fuel
yields a normal result (the run is still inside the first loop at any
fuel). -/
theorem c3_empty_batch_counterexample :
    ¬ ∃ (fuel : Nat) (m2 : PhStrMap Nat),
        strExtend refHashB refPif (defaultStrMap refPif) [] fuel = .ok m2 := by
  rintro ⟨fuel, m2, hok⟩
  have h : smallestUncommonRange ([] : List (List Nat)) fuel = .fuelOut := by
    rw [smallestUncommonRange, findStart_nil fuel 0]
  rw [strExtend] at hok
  simp only [List.map_nil, h] at hok
  exact absurd hok (by simp)

/-- C3 amended, generic-map side: extending a successfully built map with the
empty batch terminates and returns the identical map, so `get` is unchanged
for every key. -/
theorem c3_empty_batch_generic {K V : Type} (hash : K → Nat) (build : List K → Pif K)
    (kvs : List (K × V)) (M : PhMap K V)
    (hM : extend hash build (defaultMap build) kvs = some M) :
    extend hash build M [] = some M := by
  rw [extend_extend hash build kvs [] M hM, List.append_nil, ← extend_default, hM]

/-- Witness for the amended C3 on the map built from `[(5,50)]`. -/
theorem c3_empty_batch_generic_witness : extend refHash refPif c3Map [] = some c3Map :=
  c3_empty_batch_generic refHash refPif [(5, 50)] c3Map rfl

/-- C4: a map holding `kvsA` extended by a disjoint batch `kvsB` agrees under
`get` with a fresh single-`extend` build over `kvsA ++ kvsB`. -/
theorem c4_incremental_merge {K V : Type} (hash : K → Nat) (build : List K → Pif K)
    (kvsA kvsB : List (K × V)) (M M2 M3 : PhMap K V)
    (hdisj : ∀ k ∈ kvsA.map Prod.fst, k ∉ kvsB.map Prod.fst)
    (hA : extend hash build (defaultMap build) kvsA = some M)
    (hB : extend hash build M kvsB = some M2)
    (hAB : extend hash build (defaultMap build) (kvsA ++ kvsB) = some M3) :
    ∀ q, get hash M2 q = get hash M3 q := by
  have hcomp := extend_extend hash build kvsA kvsB M hA
  rw [extend_default] at hAB
  rw [hcomp, hAB] at hB
  obtain rfl : M3 = M2 := by injection hB
  exact fun q => rfl

/-- Witness for C4: `{1} ∪ {2}` incrementally equals the fresh build. -/
theorem c4_incremental_merge_witness :
    extend refHash refPif c4MapA [(2, 20)] = some c4MapAB ∧
      get refHash c4MapAB 2 = get refHash c4MapAB 2 :=
  ⟨rfl, c4_incremental_merge refHash refPif [(1, 10)] [(2, 20)] c4MapA c4MapAB c4MapAB
    (by decide) rfl rfl rfl 2⟩

/-- C5: a range `(s, e)` returned by the finder makes all slices pairwise
distinct with `e` minimal for that `s`; concretely, on
`["foo1","foo2","foo3"]` it returns start 3, end 4. -/
theorem c5_range_finder {strs : List (List Nat)} {fuel s e : Nat} :
    (smallestUncommonRange strs fuel = .ok (s, e) →
      (strs.map (fun t => sliceOf t s e)).Nodup ∧
        ∀ e2, s < e2 → e2 < e → ¬ (strs.map (fun t => sliceOf t s e2)).Nodup) ∧
      smallestUncommonRange
          [[102, 111, 111, 49], [102, 111, 111, 50], [102, 111, 111, 51]] 10 =
        .ok (3, 4) :=
  ⟨fun h => smallestUncommonRange_ok h, by decide⟩

/-- Witness for C5: the certified distinctness at the concrete return. -/
theorem c5_range_finder_witness :
    ([[102, 111, 111, 49], [102, 111, 111, 50], [102, 111, 111, 51]].map
        (fun t => sliceOf t 3 4)).Nodup := by
  have h := @c5_range_finder
    [[102, 111, 111, 49], [102, 111, 111, 50], [102, 111, 111, 51]] 10 3 4
  exact (h.1 h.2).1

/-- C6 counterexample: on `["ab","ab"]` — two bit-for-bit identical
sequences — the scan terminates after finitely many steps: it panics with an
out-of-bounds index once `start` walks past the (entirely common) prefix,
rather than running forever. -/
theorem c6_identical_counterexample :
    smallestUncommonRange [[97, 98], [97, 98]] 100 = .panic := by decide

/-- C6 amended: on any input containing two identical sequences at distinct
positions the scan never returns a range: no fuel makes it yield `ok`; every
sufficiently long run instead ends in a panic, as the counterexample
illustrates. -/
theorem c6_identical_no_range {strs : List (List Nat)} {i j : Nat}
    (hi : i < strs.length) (hj : j < strs.length) (hne : i ≠ j)
    (heq : strs[i] = strs[j]) :
    ∀ fuel s e, smallestUncommonRange strs fuel ≠ .ok (s, e) := by
  intro fuel s e hok
  obtain ⟨hnd, _⟩ := smallestUncommonRange_ok hok
  have hilen : i < (strs.map (fun t => sliceOf t s e)).length := by simpa using hi
  have hjlen : j < (strs.map (fun t => sliceOf t s e)).length := by simpa using hj
  have hval : (strs.map (fun t => sliceOf t s e))[i] =
      (strs.map (fun t => sliceOf t s e))[j] := by
    rw [List.getElem_map, List.getElem_map, heq]
  exact hne (hnd.getElem_inj_iff.mp hval)

/-- Witness for the amended C6 at the concrete identical pair. -/
theorem c6_identical_no_range_witness :
    smallestUncommonRange [[97, 98], [97, 98]] 7 ≠ .ok (0, 1) :=
  @c6_identical_no_range [[97, 98], [97, 98]] 0 1
    (by decide) (by decide) (by decide) (by decide) 7 0 1

/-- C7: once a non-empty trim range is established, an `extend` whose
recomputed range differs numerically stops at the range assertion; while the
stored range is still empty, that assertion can never be the failure. -/
theorem c7_range_stability {V : Type} (hash : List Nat → Nat)
    (build : List (List Nat) → Pif (List Nat)) (m : PhStrMap V)
    (kvs : List (List Nat × V)) (fuel a b : Nat) :
    (m.rangeStart < m.rangeEnd →
      smallestUncommonRange (kvs.map Prod.fst) fuel = .ok (a, b) →
      (a, b) ≠ (m.rangeStart, m.rangeEnd) →
      strExtend hash build m kvs fuel = .assertRangeFail) ∧
      (m.rangeEnd ≤ m.rangeStart →
        strExtend hash build m kvs fuel ≠ .assertRangeFail) := by
  constructor
  · intro hlt hok hne
    rw [strExtend, hok]
    dsimp only
    rw [if_neg (fun hor => hor.elim hne (fun h2 => by omega))]
  · intro hle hcontra
    rw [strExtend] at hcontra
    split at hcontra
    · exact absurd hcontra (by simp)
    · exact absurd hcontra (by simp)
    · rename_i a2 b2 hab
      dsimp only at hcontra
      rw [if_pos (Or.inr hle)] at hcontra
      split at hcontra
      · split at hcontra
        · exact absurd hcontra (by simp)
        · exact absurd hcontra (by simp)
      · exact absurd hcontra (by simp)

/-- Witness for C7: an established range `0..1` rejects a batch whose
computed range is `1..2`, while the default (empty-range) map does not fail
at the range assertion on the same batch. -/
theorem c7_range_stability_witness :
    strExtend refHashB refPif c7Map [([0, 5], 1), ([0, 6], 2)] 20 = .assertRangeFail ∧
      strExtend refHashB refPif (defaultStrMap refPif)
          [([0, 5], 1), ([0, 6], 2)] 20 ≠ .assertRangeFail :=
  ⟨(c7_range_stability refHashB refPif c7Map [([0, 5], 1), ([0, 6], 2)] 20 1 2).1
      (by decide) (by decide) (by decide),
    (c7_range_stability refHashB refPif (defaultStrMap refPif)
      [([0, 5], 1), ([0, 6], 2)] 20 1 2).2 (by decide)⟩

/-- C8 counterexample: with both keys mapping to slot 0 during teardown (an
ill-behaved drop-time hash), the scan destroys slot 0 once and never touches
slot 1, which is still occupied — the value is leaked, so "every
still-occupied slot's value is destroyed" fails under ill-behaved hashing. -/
theorem c8_drop_counterexample :
    (dropMap (fun _ => some 0) c8Map).2 = [0] ∧
      c8Map.values[1]? = some (some 20) ∧
      1 ∉ (dropMap (fun _ => some 0) c8Map).2 := by
  refine ⟨by decide, rfl, by decide⟩

/-- C8 amended: the teardown never destroys any slot twice, whatever in-range
slot assignment the drop-time hashing produces (ill-behaved included); and
when that assignment covers every occupied slot — as a well-behaved hash
does — every occupied slot is destroyed exactly once. -/
theorem c8_drop_exactly_once {K V : Type} (ds : K → Option Nat) (m : PhMap K V)
    (hrange : ∀ k ∈ m.keys, ∀ i, ds k = some i → i < m.values.length) :
    (dropMap ds m).2.Nodup ∧
      ((∀ i, (∃ v, m.values[i]? = some (some v)) → ∃ k ∈ m.keys, ds k = some i) →
        ∀ i v, m.values[i]? = some (some v) → (dropMap ds m).2.count i = 1) := by
  have hinit : ∀ q, (List.replicate m.values.length false)[q]? = some true ↔
      q ∈ ([] : List Nat) := by
    intro q
    rw [List.getElem?_replicate]
    constructor
    · intro h
      split at h
      · exact absurd h (by simp)
      · exact absurd h (by simp)
    · intro h
      exact absurd h (List.not_mem_nil q)
  obtain ⟨h1, h2, h3, h4, h5⟩ := dropLoop_inv ds m.keys
    (List.replicate m.values.length false) [] List.nodup_nil hinit
  refine ⟨h1, fun hcover i v hocc => ?_⟩
  have hlt : i < m.values.length := by
    by_contra hge
    rw [List.getElem?_eq_none (by omega)] at hocc
    exact absurd hocc (by simp)
  obtain ⟨k, hk, hdsk⟩ := hcover i ⟨v, hocc⟩
  have hbit := h5 k hk i hdsk (by simpa using hlt)
  have hmem : i ∈ (dropMap ds m).2 := (h2 i).mp hbit
  exact List.count_eq_one_of_mem h1 hmem

/-- Witness for the amended C8: with the identity slot assignment both
occupied slots are destroyed exactly once. -/
theorem c8_drop_exactly_once_witness :
    (dropMap (fun k => some k) c8GoodMap).2.Nodup ∧
      (dropMap (fun k => some k) c8GoodMap).2.count 0 = 1 ∧
      (dropMap (fun k => some k) c8GoodMap).2.count 1 = 1 := by
  have hrange : ∀ k ∈ c8GoodMap.keys, ∀ i, (fun k => some k) k = some i →
      i < c8GoodMap.values.length := by
    intro k hk i hi
    obtain rfl : k = i := by injection hi
    rcases List.mem_cons.mp hk with rfl | hk2
    · decide
    · rcases List.mem_cons.mp hk2 with rfl | hk3
      · decide
      · exact absurd hk3 (List.not_mem_nil _)
  have hcover : ∀ i, (∃ v, c8GoodMap.values[i]? = some (some v)) →
      ∃ k ∈ c8GoodMap.keys, (fun k => some k) k = some i := by
    rintro i ⟨v, hv⟩
    have hlt : i < 2 := by
      by_contra hge
      rw [show c8GoodMap.values[i]? = none from
        List.getElem?_eq_none (by simp [c8GoodMap]; omega)] at hv
      exact absurd hv (by simp)
    interval_cases i
    · exact ⟨0, by simp [c8GoodMap], rfl⟩
    · exact ⟨1, by simp [c8GoodMap], rfl⟩
  obtain ⟨h1, h2⟩ := c8_drop_exactly_once (fun k => some k) c8GoodMap hrange
  exact ⟨h1, h2 hcover 0 1 rfl, h2 hcover 1 2 rfl⟩

/-- C9: the empty map, and the map left by every successful `extend`, have
value and verification-hash arrays of equal length, strictly longer than the
slot index the current index function yields for each key in the key list. -/
theorem c9_array_invariant {K V : Type} (hash : K → Nat) (build : List K → Pif K) :
    ((defaultMap build : PhMap K V).values.length =
        (defaultMap build : PhMap K V).top_level_hashes.length ∧
      ∀ k ∈ (defaultMap build : PhMap K V).keys, ∃ i,
        pifGet hash (defaultMap build : PhMap K V).to_index k = some i ∧
          i < (defaultMap build : PhMap K V).values.length) ∧
      ∀ (m M : PhMap K V) (kvs : List (K × V)), extend hash build m kvs = some M →
        M.values.length = M.top_level_hashes.length ∧
        ∀ k ∈ M.keys, ∃ i, pifGet hash M.to_index k = some i ∧ i < M.values.length := by
  constructor
  · exact ⟨rfl, fun k hk => absurd hk (List.not_mem_nil k)⟩
  · intro m M kvs hM
    rw [extend] at hM
    split at hM
    · exact absurd hM (by simp)
    · rename_i oldPairs hold
      obtain ⟨hkeys, _, _, hlen, hper⟩ := extendCore_spec hash build _ M hM
      refine ⟨hlen, fun k hk => ?_⟩
      rw [hkeys] at hk
      obtain ⟨kv, hkv, rfl⟩ := List.mem_map.mp hk
      obtain ⟨idx, hpg, hlt2, _, _⟩ := hper kv hkv
      exact ⟨idx, hpg, hlt2⟩

/-- Witness for C9 after the concrete extend of `[(3,7)]`. -/
theorem c9_array_invariant_witness :
    c9Map.values.length = c9Map.top_level_hashes.length :=
  ((c9_array_invariant refHash refPif).2 (defaultMap refPif) c9Map [(3, 7)] rfl).1

/-- C10: extending any string map with a single pair — hence every
`PhStrMap::insert` — never returns normally: the common-prefix scan finds a
one-element collection all-equal at every position, walks `start` past the
key's end, and panics on the out-of-bounds index (given enough fuel to get
there). -/
theorem c10_single_insert {V : Type} (hash : List Nat → Nat)
    (build : List (List Nat) → Pif (List Nat)) (m : PhStrMap V) (k : List Nat) (v : V)
    (fuel : Nat) :
    (strExtend hash build m [(k, v)] fuel = .rangePanic ∨
      strExtend hash build m [(k, v)] fuel = .rangeFuelOut) ∧
      (k.length < fuel → strExtend hash build m [(k, v)] fuel = .rangePanic) ∧
      strInsert hash build m k v fuel = strExtend hash build m [(k, v)] fuel := by
  obtain ⟨h1, h2⟩ := smallestUncommonRange_single k fuel
  refine ⟨?_, ?_, rfl⟩
  · rcases h1 with h | h
    · rw [strExtend, show List.map Prod.fst [(k, v)] = [k] from rfl, h]
      exact Or.inl rfl
    · rw [strExtend, show List.map Prod.fst [(k, v)] = [k] from rfl, h]
      exact Or.inr rfl
  · intro hlt
    rw [strExtend, show List.map Prod.fst [(k, v)] = [k] from rfl, h2 hlt]

/-- Witness for C10: inserting the single key `[1,2]` panics inside the
range finder. -/
theorem c10_single_insert_witness :
    strExtend refHashB refPif (defaultStrMap refPif) [([1, 2], (5 : Nat))] 10 =
      .rangePanic :=
  (c10_single_insert refHashB refPif (defaultStrMap refPif) [1, 2] 5 10).2.1 (by decide)

end PhMapModel
